import Mathlib

/-!
# Formal model of the `EmbeddedProject` stopwatch firmware

A shallow embedding of `src/main.cpp`: an mbed sketch driving a 4-digit
common-anode 7-segment display through a shift register, with a per-second
ticker interrupt (`updateTime`), a reset button, and a potentiometer whose
scaled voltage can be shown instead of the elapsed time.

Modelling conventions:
* C `int` is modelled as `ℤ`; C integer division and remainder truncate
  toward zero, i.e. `Int.tdiv` / `Int.tmod`.
* `uint8_t` quantities are modelled as `ℕ` (well-defined because every
  bitwise operation used masks results into 8 bits).
* Hardware pin writes are modelled as an explicit event trace.
* The `float` arithmetic of the voltage pipeline is modelled exactly: an
  IEEE-754 binary32 value is an integer pair `(m, e)` denoting `m · 2^e`,
  and each C float operation performs the exact rational operation followed
  by correct rounding to 24 significand bits (round-to-nearest,
  ties-to-even).  Every value the program produces is a normal float, so
  this is the exact semantics of the source on an IEEE target.
-/

set_option autoImplicit false

namespace EmbeddedClock

/-- The two global time counters, `volatile int seconds = 0, minutes = 0;`. -/
structure ClockState where
  seconds : Int
  minutes : Int
  deriving DecidableEq, Repr

/-- The ticker callback `updateTime` from the source:
`if (++seconds >= 60) { seconds = 0; if (++minutes >= 100) minutes = 0; }`. -/
def updateTime (st : ClockState) : ClockState :=
  let s := st.seconds + 1
  if 60 ≤ s then
    let m := st.minutes + 1
    if 100 ≤ m then ⟨0, 0⟩ else ⟨0, m⟩
  else
    ⟨s, st.minutes⟩

/-- States reachable from power-on (`seconds = 0, minutes = 0`) through the
ticker interrupt `updateTime` and the main loop's reset
(`seconds = minutes = 0` when button S1 is pressed). -/
inductive Reachable : ClockState → Prop
  | init : Reachable ⟨0, 0⟩
  | tick {st : ClockState} : Reachable st → Reachable (updateTime st)
  | reset {st : ClockState} : Reachable st → Reachable ⟨0, 0⟩

/-- A single write to one of the three shift-register control pins; the `Nat`
argument is the logic level written (0 or 1). -/
inductive PinEvent where
  | data (level : Nat)
  | clock (level : Nat)
  | latch (level : Nat)
  deriving DecidableEq, Repr

/-- `shiftOut` from the source, as the trace of pin writes it performs:
`for (int i = 7; i >= 0; --i) { dataPin = (value >> i) & 0x01;
clockPin = 1; clockPin = 0; }`. -/
def shiftOut (value : Nat) : List PinEvent :=
  (List.range 8).reverse.flatMap fun i =>
    [.data ((value >>> i) &&& 0x01), .clock 1, .clock 0]

/-- `writeToShiftRegister` from the source: latch low, shift the segment
byte, shift the digit-select byte, latch high. -/
def writeToShiftRegister (segments digit : Nat) : List PinEvent :=
  [.latch 0] ++ shiftOut segments ++ shiftOut digit ++ [.latch 1]

/-- The `digitPattern` table from the source.  Each entry is
`static_cast<uint8_t>(~p)` for a byte `p`, and the `uint8_t` complement of
`p < 256` is `p ^^^ 0xFF`. -/
def digitPattern : List Nat :=
  [0x3F, 0x06, 0x5B, 0x4F, 0x66, 0x6D, 0x7D, 0x07, 0x7F, 0x6F].map (· ^^^ 0xFF)

/-- The `digitPos` digit-select table from the source. -/
def digitPos : List Nat := [0x01, 0x02, 0x04, 0x08]

/-- The local array `digits[4]` computed by `displayNumber`:
thousands, hundreds, tens, units, each reduced modulo 10 (C `int`
arithmetic, truncating toward zero). -/
def digitsOf (number : Int) : List Int :=
  [(number.tdiv 1000).tmod 10,
   (number.tdiv 100).tmod 10,
   (number.tdiv 10).tmod 10,
   number.tmod 10]

/-- The four `(segments, digit-select)` byte pairs that `displayNumber`
writes to the shift register, one per digit slot `i = 0..3`.
`segments &= ~0x80` on a `uint8_t` is `· &&& 0x7F`.  `Int.toNat` and `getD`
totalise the C array indexing; for the non-negative arguments the program
uses, every index is in bounds (proved below). -/
def displaySlots (number : Int) (showDecimal : Bool) (decimalPos : Int) :
    List (Nat × Nat) :=
  (List.range 4).map fun i =>
    let segments := digitPattern.getD ((digitsOf number).getD i 0).toNat 0
    let segments :=
      if showDecimal ∧ (i : Int) = decimalPos then segments &&& 0x7F
      else segments
    (segments, digitPos.getD i 0)

/-- `displayNumber` as the full trace of shift-register pin writes (the 2 ms
settling delay between slots does not affect the trace). -/
def displayNumber (number : Int) (showDecimal : Bool) (decimalPos : Int) :
    List PinEvent :=
  (displaySlots number showDecimal decimalPos).flatMap fun sd =>
    writeToShiftRegister sd.1 sd.2

/-- `int timeValue = minutes * 100 + seconds;` from the main loop. -/
def mainTimeValue (st : ClockState) : Int := st.minutes * 100 + st.seconds

/-! ## Exact binary32 model of the voltage pipeline

A float value is an integer pair `(m, e)` denoting `m · 2^e`.  Rounding a
non-negative exact rational `n / d` to binary32 first rescales the fraction
until it lies in `[2^23, 2^24)` and then rounds the integer part to nearest,
ties to even.  All intermediate values of the program are normal binary32
values (no overflow, no subnormals), so this models IEEE-754 arithmetic
exactly. -/

/-- Rescale the fraction `n / d` by powers of two (tracked in `e`) until it
lies in `[2^23, 2^24)`; structural fuel makes the recursion evident. -/
def normFrac : Nat → Int → Int → Int → Int × Int × Int
  | 0, n, d, e => (n, d, e)
  | fuel + 1, n, d, e =>
    if 2 ^ 24 * d ≤ n then normFrac fuel n (2 * d) (e + 1)
    else if n < 2 ^ 23 * d then normFrac fuel (2 * n) d (e - 1)
    else (n, d, e)

/-- Round the non-negative fraction `n / d` (with `d > 0`) to the nearest
binary32 value, ties to even, returned as a dyadic pair `(m, e)`. -/
def rndRat (n d : Int) : Int × Int :=
  if n = 0 then (0, 0)
  else
    match normFrac 300 n d 0 with
    | (n', d', e) =>
      let q := n'.tdiv d'
      let r := n'.tmod d'
      let m :=
        if 2 * r < d' then q
        else if d' < 2 * r then q + 1
        else if q.tmod 2 = 0 then q else q + 1
      (m, e)

/-- The exact rational value of a dyadic pair, as `(numerator, denominator)`. -/
def toFrac : Int × Int → Int × Int
  | (m, e) => if 0 ≤ e then (m * 2 ^ e.toNat, 1) else (m, 2 ^ (-e).toNat)

/-- binary32 multiplication: exact product, then one correct rounding. -/
def mulF (a b : Int × Int) : Int × Int :=
  rndRat ((toFrac a).1 * (toFrac b).1) ((toFrac a).2 * (toFrac b).2)

/-- binary32 division: exact quotient, then one correct rounding. -/
def divF (a b : Int × Int) : Int × Int :=
  rndRat ((toFrac a).1 * (toFrac b).2) ((toFrac a).2 * (toFrac b).1)

/-- `static_cast<int>` applied to a binary32 value: truncation toward zero. -/
def truncF (a : Int × Int) : Int :=
  if 0 ≤ a.2 then a.1 * 2 ^ a.2.toNat else a.1.tdiv (2 ^ (-a.2).toNat)

/-- The `float` literal `3.3f`: the decimal `33/10` rounded to binary32. -/
def lit3p3 : Int × Int := rndRat 33 10

/-- `float voltage = potentiometer.read_u16() * 3.3f / 65535;` for a raw
16-bit ADC sample.  The `int` operands are converted to binary32 (exactly,
as they are below `2^24`) and both operations round once each. -/
def voltage (raw : Nat) : Int × Int :=
  divF (mulF (rndRat (raw : Int) 1) lit3p3) (rndRat 65535 1)

/-- `int displayVal = static_cast<int>(voltage * 1000);`. -/
def displayVal (raw : Nat) : Int :=
  truncF (mulF (voltage raw) (rndRat 1000 1))

/-! ## Helper lemmas -/

theorem updateTime_no_wrap {s m : Int} (h : s + 1 < 60) :
    updateTime ⟨s, m⟩ = ⟨s + 1, m⟩ := by
  simp only [updateTime]
  rw [if_neg (by omega)]

theorem updateTime_iterate_no_wrap (k : Nat) (s m : Int) (h : s + k ≤ 59) :
    updateTime^[k] ⟨s, m⟩ = ⟨s + k, m⟩ := by
  induction k generalizing s with
  | zero => simp
  | succ j ih =>
    rw [Function.iterate_succ_apply, updateTime_no_wrap (by omega)]
    rw [ih (s + 1) (by push_cast at h ⊢; omega)]
    congr 1
    push_cast
    ring

theorem updateTime_wrap (m : Int) : updateTime ⟨59, m⟩ = ⟨0, if 100 ≤ m + 1 then 0 else m + 1⟩ := by
  simp only [updateTime]
  rw [if_pos (by omega)]
  split_ifs with h <;> rfl

theorem reachable_range {st : ClockState} (h : Reachable st) :
    0 ≤ st.seconds ∧ st.seconds ≤ 59 ∧ 0 ≤ st.minutes ∧ st.minutes ≤ 99 := by
  induction h with
  | init => norm_num
  | tick _ ih =>
    obtain ⟨h1, h2, h3, h4⟩ := ih
    simp only [updateTime]
    split_ifs <;> simp <;> omega
  | reset _ _ => norm_num

theorem digitsOf_natCast (k : Nat) :
    digitsOf (k : Int) =
      [((k / 1000 % 10 : Nat) : Int), ((k / 100 % 10 : Nat) : Int),
       ((k / 10 % 10 : Nat) : Int), ((k % 10 : Nat) : Int)] := by
  have hdiv : ∀ a b : Nat, (a : Int).tdiv (b : Nat) = ((a / b : Nat) : Int) := by
    intro a b
    exact_mod_cast (Int.ofNat_tdiv a b).symm
  have hmod : ∀ a b : Nat, (a : Int).tmod (b : Nat) = ((a % b : Nat) : Int) := by
    intro a b
    exact_mod_cast rfl
  have h1000 : ((1000 : Nat) : Int) = 1000 := by norm_num
  have h100 : ((100 : Nat) : Int) = 100 := by norm_num
  have h10 : ((10 : Nat) : Int) = 10 := by norm_num
  simp only [digitsOf, ← h1000, ← h100, ← h10, hdiv, hmod]

theorem digitsOf_bounds (n : Int) (hn : 0 ≤ n) (i : Nat) :
    0 ≤ (digitsOf n).getD i 0 ∧ (digitsOf n).getD i 0 < 10 := by
  obtain ⟨k, rfl⟩ : ∃ j : Nat, n = (j : Int) := ⟨n.toNat, by omega⟩
  rw [digitsOf_natCast]
  rcases i with _ | _ | _ | _ | i <;> simp [List.getD] <;> omega

theorem digitPattern_msb (d : Nat) (hd : d < 10) :
    digitPattern.getD d 0 &&& 0x80 = 0x80 := by
  interval_cases d <;> decide

theorem and_127_and_128 (a : Nat) : a &&& 0x7F &&& 0x80 = 0 := by
  have h : (0x7F &&& 0x80 : Nat) = 0 := by decide
  rw [Nat.and_assoc, h, Nat.and_zero]

theorem displaySlots_getD (number : Int) (sd : Bool) (dp : Int) (i : Nat) (hi : i < 4) :
    (displaySlots number sd dp).getD i (0, 0) =
      ((if sd ∧ (i : Int) = dp then
          digitPattern.getD ((digitsOf number).getD i 0).toNat 0 &&& 0x7F
        else digitPattern.getD ((digitsOf number).getD i 0).toNat 0),
       digitPos.getD i 0) := by
  interval_cases i <;> rfl

theorem shiftRight_and_one (v i : Nat) :
    (v >>> i) &&& 1 = if v.testBit i then 1 else 0 := by
  rw [Nat.testBit_to_div_mod, Nat.shiftRight_eq_div_pow, Nat.and_one_is_mod]
  split_ifs with h
  · simpa using h
  · simp at h
    omega

theorem shiftOut_no_latch (v : Nat) :
    ∀ e ∈ shiftOut v, ∀ level : Nat, e ≠ .latch level := by
  intro e he level
  simp only [shiftOut, List.mem_flatMap, List.mem_cons, List.not_mem_nil, or_false] at he
  obtain ⟨i, -, he⟩ := he
  rcases he with rfl | rfl | rfl <;> simp

/-! ## Claims -/

set_option maxRecDepth 10000 in
/-- C1, counterexample: starting from `seconds = 0`, `minutes = 99` (both in
their documented ranges), sixty calls to `updateTime` return `seconds` to 0
but leave `minutes = 0`, not `99 + 1`: the claim's unconditional "minutes
increments by exactly 1" fails at the 99 → 0 wrap. -/
theorem updateTime_sixty_calls_cex :
    ¬ ((updateTime^[60] (⟨0, 99⟩ : ClockState)).seconds = 0 ∧
       (updateTime^[60] (⟨0, 99⟩ : ClockState)).minutes = 99 + 1) := by
  decide

/-- C1 (amended): for every start state with `seconds ∈ [0,59]` and
`minutes ∈ [0,99]`, after exactly 60 calls to `updateTime` the seconds
counter returns to its starting value and the minutes counter advances by
exactly one modulo 100 (so 99 wraps to 0). -/
theorem updateTime_sixty_calls (s m : Int) (hs0 : 0 ≤ s) (hs : s ≤ 59)
    (hm0 : 0 ≤ m) (hm : m ≤ 99) :
    updateTime^[60] ⟨s, m⟩ = ⟨s, (m + 1) % 100⟩ := by
  obtain ⟨j, rfl⟩ : ∃ j : Nat, s = (j : Int) := ⟨s.toNat, by omega⟩
  have hj : j ≤ 59 := by exact_mod_cast hs
  have h60 : (60 : Nat) = j + (1 + (59 - j)) := by omega
  rw [h60, Function.iterate_add_apply, Function.iterate_add_apply]
  have h1 : updateTime^[59 - j] ⟨(j : Int), m⟩ = ⟨59, m⟩ := by
    rw [updateTime_iterate_no_wrap (59 - j) j m (by omega)]
    congr 1
    omega
  have h2 : (if 100 ≤ m + 1 then (0 : Int) else m + 1) = (m + 1) % 100 := by
    split_ifs <;> omega
  rw [h1, Function.iterate_one, updateTime_wrap, h2,
    updateTime_iterate_no_wrap j 0 ((m + 1) % 100) (by omega)]
  congr 1
  omega

/-- Witness for `updateTime_sixty_calls` at `seconds = 0`, `minutes = 0`. -/
theorem updateTime_sixty_calls_witness :
    updateTime^[60] (⟨0, 0⟩ : ClockState) = ⟨0, (0 + 1) % 100⟩ :=
  updateTime_sixty_calls 0 0 (by norm_num) (by norm_num) (by norm_num) (by norm_num)

/-- C2: every state reachable from `⟨0, 0⟩` by `updateTime` ticks and resets
satisfies `seconds ∈ [0,59]` and `minutes ∈ [0,99]`; moreover `updateTime`
drives `minutes` to 0 exactly when `minutes` stays 0 without crossing a
minute boundary or wraps from 99 at a minute boundary — never at 60. -/
theorem reachable_invariant (st : ClockState) (h : Reachable st) :
    (0 ≤ st.seconds ∧ st.seconds ≤ 59 ∧ 0 ≤ st.minutes ∧ st.minutes ≤ 99) ∧
    ((updateTime st).minutes = 0 ↔
      (st.seconds ≠ 59 ∧ st.minutes = 0) ∨ (st.seconds = 59 ∧ st.minutes = 99)) := by
  have hr := reachable_range h
  refine ⟨hr, ?_⟩
  obtain ⟨h1, h2, h3, h4⟩ := hr
  obtain ⟨s, m⟩ := st
  simp only [updateTime] at h1 h2 h3 h4 ⊢
  split_ifs with hs hm <;> dsimp only at * <;> omega

/-- Witness for `reachable_invariant` at the initial state. -/
theorem reachable_invariant_witness :
    ((0 ≤ (⟨0, 0⟩ : ClockState).seconds ∧ (⟨0, 0⟩ : ClockState).seconds ≤ 59 ∧
      0 ≤ (⟨0, 0⟩ : ClockState).minutes ∧ (⟨0, 0⟩ : ClockState).minutes ≤ 99) ∧
     ((updateTime ⟨0, 0⟩).minutes = 0 ↔
       ((⟨0, 0⟩ : ClockState).seconds ≠ 59 ∧ (⟨0, 0⟩ : ClockState).minutes = 0) ∨
       ((⟨0, 0⟩ : ClockState).seconds = 59 ∧ (⟨0, 0⟩ : ClockState).minutes = 99))) :=
  reachable_invariant ⟨0, 0⟩ Reachable.init

/-- C3: under exact IEEE-754 binary32 semantics of the source's `float`
arithmetic, the voltage pipeline maps the raw 16-bit sample 65535 to the
displayed integer 3300, and the raw sample 0 to 0. -/
theorem voltage_pipeline_endpoints : displayVal 65535 = 3300 ∧ displayVal 0 = 0 := by
  decide

/-- C8: from `seconds = 59`, `minutes = 3` a single `updateTime` yields
`seconds = 0`, `minutes = 4`; the main loop's combined value
`minutes * 100 + seconds` is then 400, which `displayNumber` decomposes into
digits [0,4,0,0]; the segment byte written for slot 1 is the pattern for
digit 4 with bit 7 (the decimal point) cleared, rendering "04.00". -/
theorem scenario_wrap_to_0400 :
    updateTime ⟨59, 3⟩ = ⟨0, 4⟩ ∧
    mainTimeValue (updateTime ⟨59, 3⟩) = 400 ∧
    digitsOf 400 = [0, 4, 0, 0] ∧
    displaySlots 400 true 1 =
      [(0xC0, 0x01), (0x99 &&& 0x7F, 0x02), (0xC0, 0x04), (0xC0, 0x08)] ∧
    ((displaySlots 400 true 1).getD 1 (0, 0)).1 &&& 0x80 = 0 := by
  decide

/-- C4: `displayNumber` decomposes its argument into (thousands, hundreds,
tens, units), each reduced modulo 10: 1234 yields [1,2,3,4], 12345 yields
[2,3,4,5], and in general a non-negative argument displays exactly its low
four decimal digits. -/
theorem displayNumber_digit_decomposition :
    digitsOf 1234 = [1, 2, 3, 4] ∧ digitsOf 12345 = [2, 3, 4, 5] ∧
    ∀ n : Int, 0 ≤ n → digitsOf n = digitsOf (n % 10000) := by
  refine ⟨by decide, by decide, fun n hn => ?_⟩
  obtain ⟨k, rfl⟩ : ∃ j : Nat, n = (j : Int) := ⟨n.toNat, by omega⟩
  have hcast : ((k : Int) % 10000) = ((k % 10000 : Nat) : Int) := by
    exact_mod_cast rfl
  rw [hcast, digitsOf_natCast, digitsOf_natCast]
  simp only [List.cons.injEq, Nat.cast_inj, and_true]
  refine ⟨?_, ?_, ?_, ?_⟩ <;> omega

/-- Witness for `displayNumber_digit_decomposition` at 56789. -/
theorem displayNumber_digit_decomposition_witness :
    digitsOf 56789 = digitsOf (56789 % 10000) :=
  displayNumber_digit_decomposition.2.2 56789 (by norm_num)

/-- C9: for every non-negative argument, each of the four digits computed by
`displayNumber` lies in [0,10), so every index used to read the 10-entry
`digitPattern` table is in bounds. -/
theorem displayNumber_digit_indices (n : Int) (hn : 0 ≤ n) (i : Nat) :
    0 ≤ (digitsOf n).getD i 0 ∧ (digitsOf n).getD i 0 < 10 ∧
    ((digitsOf n).getD i 0).toNat < digitPattern.length := by
  obtain ⟨hb1, hb2⟩ := digitsOf_bounds n hn i
  have hlen : digitPattern.length = 10 := by decide
  exact ⟨hb1, hb2, by omega⟩

/-- Witness for `displayNumber_digit_indices` at 1234, thousands digit. -/
theorem displayNumber_digit_indices_witness :
    0 ≤ (digitsOf 1234).getD 0 0 ∧ (digitsOf 1234).getD 0 0 < 10 ∧
    ((digitsOf 1234).getD 0 0).toNat < digitPattern.length :=
  displayNumber_digit_indices 1234 (by norm_num) 0

/-- C5: in `displayNumber(x, true, 1)` the segment byte written for slot 1
has bit 7 (the decimal-point bit) cleared, while the segment bytes written
for the other three slots keep bit 7 set. -/
theorem displayNumber_decimal_only_slot1 (x : Int) (hx : 0 ≤ x) :
    ((displaySlots x true 1).getD 1 (0, 0)).1 &&& 0x80 = 0 ∧
    ∀ i : Nat, i < 4 → i ≠ 1 →
      ((displaySlots x true 1).getD i (0, 0)).1 &&& 0x80 = 0x80 := by
  constructor
  · rw [displaySlots_getD x true 1 1 (by norm_num),
      if_pos ⟨rfl, by norm_num⟩]
    exact and_127_and_128 _
  · intro i h1 h2
    rw [displaySlots_getD x true 1 i h1,
      if_neg (by rintro ⟨-, hc⟩; exact h2 (by exact_mod_cast hc))]
    obtain ⟨hb1, hb2⟩ := digitsOf_bounds x hx i
    exact digitPattern_msb _ (by omega)

/-- Witness for `displayNumber_decimal_only_slot1` at 1234, slots 1 and 0. -/
theorem displayNumber_decimal_only_slot1_witness :
    ((displaySlots 1234 true 1).getD 1 (0, 0)).1 &&& 0x80 = 0 ∧
    ((displaySlots 1234 true 1).getD 0 (0, 0)).1 &&& 0x80 = 0x80 :=
  ⟨(displayNumber_decimal_only_slot1 1234 (by norm_num)).1,
   (displayNumber_decimal_only_slot1 1234 (by norm_num)).2 0 (by norm_num) (by norm_num)⟩

/-- C10: every entry of `digitPattern` has bit 7 set (decimal point off), so
in any `displayNumber` call the decimal-point bit of a written segment byte
is clear exactly on the slot where the function explicitly clears it, never
as a side effect of a digit's pattern. -/
theorem digitPattern_decimal_bit :
    (∀ d : Nat, d < 10 → digitPattern.getD d 0 &&& 0x80 = 0x80) ∧
    (∀ x : Int, 0 ≤ x → ∀ (sd : Bool) (dp : Int) (i : Nat), i < 4 →
      (((displaySlots x sd dp).getD i (0, 0)).1 &&& 0x80 = 0 ↔
        sd = true ∧ (i : Int) = dp)) := by
  refine ⟨digitPattern_msb, fun x hx sd dp i hi => ?_⟩
  rw [displaySlots_getD x sd dp i hi]
  obtain ⟨hb1, hb2⟩ := digitsOf_bounds x hx i
  by_cases h : sd = true ∧ (i : Int) = dp
  · rw [if_pos h]
    simp only [and_127_and_128, true_iff]
    exact h
  · rw [if_neg h]
    have hm := digitPattern_msb ((digitsOf x).getD i 0).toNat (by omega)
    constructor
    · intro h0
      rw [hm] at h0
      exact absurd h0 (by norm_num)
    · intro hc
      exact absurd hc h

/-- Witness for `digitPattern_decimal_bit`: entry 3 and the slot-1 decimal of
`displayNumber(56, true, 1)`. -/
theorem digitPattern_decimal_bit_witness :
    digitPattern.getD 3 0 &&& 0x80 = 0x80 ∧
    (((displaySlots 56 true 1).getD 1 (0, 0)).1 &&& 0x80 = 0 ↔
      true = true ∧ ((1 : Nat) : Int) = 1) :=
  ⟨digitPattern_decimal_bit.1 3 (by norm_num),
   digitPattern_decimal_bit.2 56 (by norm_num) true 1 1 (by norm_num)⟩

/-- C6: `shiftOut` transmits the 8 bits of `value` most-significant-bit
first — for each bit position 7 down to 0 it sets the data line to that bit
and pulses the clock high then low — and produces exactly 8 clock pulses. -/
theorem shiftOut_msb_first (value : Nat) :
    shiftOut value =
      [7, 6, 5, 4, 3, 2, 1, 0].flatMap (fun i =>
        [.data (if value.testBit i then 1 else 0), .clock 1, .clock 0]) ∧
    (shiftOut value).count (.clock 1) = 8 := by
  have h1 : shiftOut value = [7, 6, 5, 4, 3, 2, 1, 0].flatMap (fun i =>
      [.data (if value.testBit i then 1 else 0), .clock 1, .clock 0]) := by
    have hrange : (List.range 8).reverse = [7, 6, 5, 4, 3, 2, 1, 0] := rfl
    rw [shiftOut, hrange]
    simp only [List.flatMap_cons, List.flatMap_nil, shiftRight_and_one, List.append_nil]
  refine ⟨h1, ?_⟩
  rw [h1]
  simp [List.count_cons, List.count_nil]

/-- C7: `writeToShiftRegister` first drives the latch low, then shifts out
the segment byte followed by the digit-select byte with no latch activity in
between, and finally drives the latch high, committing both bytes in a
single latch pulse. -/
theorem writeToShiftRegister_order (segments digit : Nat) :
    (writeToShiftRegister segments digit).head? = some (.latch 0) ∧
    (writeToShiftRegister segments digit).getLast? = some (.latch 1) ∧
    ((writeToShiftRegister segments digit).drop 1).dropLast =
      shiftOut segments ++ shiftOut digit ∧
    ∀ e ∈ ((writeToShiftRegister segments digit).drop 1).dropLast,
      ∀ level : Nat, e ≠ .latch level := by
  have hmid : ((writeToShiftRegister segments digit).drop 1).dropLast =
      shiftOut segments ++ shiftOut digit := by
    rw [writeToShiftRegister, List.append_assoc, List.append_assoc,
      List.singleton_append, List.drop_succ_cons, List.drop_zero,
      ← List.append_assoc, List.dropLast_concat]
  refine ⟨rfl, List.getLast?_concat _, hmid, ?_⟩
  rw [hmid]
  intro e he level
  rcases List.mem_append.mp he with h | h
  · exact shiftOut_no_latch segments e h level
  · exact shiftOut_no_latch digit e h level

end EmbeddedClock
